import Mathlib

/-!
Verification of the Telegram storage backend's topic-tree filesystem layer.

The development shallowly embeds the backend's path canonicalization
(filesystem/paths, mirroring Go's path.Clean and path.Dir), the message
search pagination loops (Objects, ObjectSearch and the two generations of
Rmdir), the topic directory resolver (Directory, DirectoriesFrom,
CreateTopic, DeleteTopic), the response-shape dispatch of
SearchMessagesTopic, the gateway retry policy and the multipart checksum
pipeline (FromFileHash), and proves or refutes the specification's claims
about them.

Machine strings are modelled as Lean String (a structure over List Char);
all character-level path functions operate on List Char and are wrapped.
Go int32/int64 values are modelled as Int.
-/

namespace TelegramFs

/-- Character-level test for a leading slash, mirroring
strings.HasPrefix(s, "/") as used by Clean. -/
def hasLeadSlash (l : List Char) : Bool :=
  l.head? = some '/'

/-- Character-level test for a trailing slash, mirroring
strings.HasSuffix(s, "/") as used by Clean and TrimSuffix. -/
def hasTrailSlash (l : List Char) : Bool :=
  l.getLast? = some '/'

/-- Split a character list on the slash separator.  An empty input yields a
single empty field, and every separator produces a field boundary, matching
the element decomposition Go's path.Clean performs. -/
def splitSlash : List Char → List (List Char)
  | [] => [[]]
  | c :: cs =>
    if c = '/' then [] :: splitSlash cs
    else
      match splitSlash cs with
      | [] => [[c]]
      | w :: ws => (c :: w) :: ws

/-- Join path elements with single slashes (inverse of splitSlash on
canonical element lists). -/
def joinElems : List (List Char) → List Char
  | [] => []
  | [e] => e
  | e :: es => e ++ '/' :: joinElems es

/-- Modelled from the Go standard library path.Clean (external collaborator
of this backend): the element-stack core of the documented algorithm.
Processes the split elements left to right; empty and dot elements are
dropped, a dot-dot element pops the last real element (and is itself
dropped at the root of a rooted path, or kept for an unrooted path), and
every other element is pushed.  The stack is kept in reverse order (head is
the most recently pushed element). -/
def processElems (rooted : Bool) : List (List Char) → List (List Char) → List (List Char)
  | stack, [] => stack
  | stack, e :: es =>
    if e = [] ∨ e = ['.'] then processElems rooted stack es
    else if e = ['.', '.'] then
      match stack with
      | [] =>
        if rooted then processElems rooted [] es
        else processElems rooted [['.', '.']] es
      | top :: rest =>
        if top = ['.', '.'] then processElems rooted (['.', '.'] :: top :: rest) es
        else processElems rooted rest es
    else processElems rooted (e :: stack) es

/-- Modelled from the Go standard library path.Clean (external collaborator):
full cleaning of a slash-separated path.  Empty input becomes the dot path;
a rooted result keeps its leading slash; an unrooted result that cleaned to
nothing becomes the dot path. -/
def cleanChars (p : List Char) : List Char :=
  if p = [] then ['.']
  else
    let rooted := hasLeadSlash p
    let stack := processElems rooted [] (splitSlash p)
    let out := joinElems stack.reverse
    if rooted = true then '/' :: out
    else if out = [] then ['.'] else out

/-- Keep everything up to and including the final slash, mirroring the
dir component of Go's path.Split (strings.LastIndex based). -/
def upToLastSlash : List Char → List Char
  | [] => []
  | c :: cs =>
    let rest := upToLastSlash cs
    if c = '/' then
      if rest = [] then ['/'] else c :: rest
    else
      if rest = [] then [] else c :: rest

/-- Modelled from the Go standard library path.Dir (external collaborator):
Clean of everything up to the final slash; a path with no slash has
directory dot. -/
def dirChars (p : List Char) : List Char :=
  cleanChars (upToLastSlash p)

/-- String wrapper for the modelled path.Clean. -/
def pathClean (s : String) : String :=
  ⟨cleanChars s.data⟩

/-- String wrapper for the modelled path.Dir. -/
def pathDir (s : String) : String :=
  ⟨dirChars s.data⟩

/-- Clean from the repository's path utilities: the empty path becomes the
root; any other path is forced to begin and end with a slash and is then
passed to path.Clean.  Character-level body. -/
def cleanList (input : List Char) : List Char :=
  if input = [] then cleanChars ['/']
  else
    let s1 := if hasLeadSlash input = true then input else '/' :: input
    let s2 := if hasTrailSlash s1 = true then s1 else s1 ++ ['/']
    cleanChars s2

/-- Clean from the repository's path utilities (String wrapper). -/
def Clean (s : String) : String :=
  ⟨cleanList s.data⟩

/-- UntrailSlash from the repository: strings.TrimSuffix(input, slash). -/
def untrailChars (l : List Char) : List Char :=
  if hasTrailSlash l then l.dropLast else l

/-- UntrailSlash (String wrapper). -/
def UntrailSlash (s : String) : String :=
  ⟨untrailChars s.data⟩

/-- TrailSlash from the repository: append a slash. -/
def TrailSlash (s : String) : String :=
  s ++ "/"

/-- LeadSlash from the repository: prepend a slash. -/
def LeadSlash (s : String) : String :=
  "/" ++ s

/-- A path element is plain when it is non-empty, not a dot element, not a
dot-dot element and slash-free: exactly the elements that can survive on
the stack of a rooted clean. -/
def plainElem (e : List Char) : Prop :=
  e ≠ [] ∧ e ≠ ['.'] ∧ e ≠ ['.', '.'] ∧ '/' ∉ e

/-- Telegram message shapes: the implementations of the telegram.Message
interface.  User messages (MessageObj) carry the file's absolute path as
their body; service messages are system notices; empty messages are
placeholders. -/
inductive TgMessage where
  | messageObj (id : Int) (message : String) (date : Int)
  | messageService (id : Int) (date : Int)
  | messageEmpty (id : Int)
deriving Repr, DecidableEq

/-- User (non-service, non-system) messages: per the data model, the only
entries that enter the file listing and emptiness-count path. -/
def isUserMessage : TgMessage → Bool
  | .messageObj _ _ _ => true
  | _ => false

/-- Body text of a message (empty for non-user shapes). -/
def messageBody : TgMessage → String
  | .messageObj _ b _ => b
  | _ => ""

/-- A forum topic: one directory, its title being the directory's absolute
path string. -/
structure ForumTopic where
  id : Int
  title : String
  date : Int
deriving Repr, DecidableEq

/-- ChannelRootTopicId from the options: the root topic id is 1 and must
never be deleted. -/
def channelRootTopicId : Int := 1

/-- One page of a message search as consumed by the pagination loops: the
carried messages, the reported amount, the incompleteness flag and the
continuation offset (Go int32/int64 modelled as Int). -/
structure SearchPage where
  messages : List TgMessage
  amount : Int
  incomplete : Bool
  next : Int
deriving Repr, DecidableEq

/-- Result shapes of the remote MessagesSearch call that
SearchMessagesTopic dispatches on. -/
inductive MessagesResult where
  | messagesObj (messages : List TgMessage)
  | messagesSlice (messages : List TgMessage) (offsetIdOffset : Int)
  | channelMessages (messages : List TgMessage) (count : Int) (offsetIdOffset : Int)
  | messagesNotModified (count : Int)
  | unknownResult
deriving Repr, DecidableEq

/-- The response-shape dispatch of SearchMessagesTopic: the complete shape
reports the carried length, not incomplete, and keeps the queried offset;
the slice shape reports the carried length, incomplete, and the returned
offset; the channel shape reports the server total Count as the amount,
incomplete exactly when Count is positive, and the returned offset; the
not-modified shape reports Count, incomplete, and the queried offset; an
unknown shape is the no-updates error (none). -/
def searchMessagesTopicDispatch (offset : Int) : MessagesResult → Option SearchPage
  | .messagesObj ms => some ⟨ms, Int.ofNat ms.length, false, offset⟩
  | .messagesSlice ms off => some ⟨ms, Int.ofNat ms.length, true, off⟩
  | .channelMessages ms count off => some ⟨ms, count, decide (0 < count), off⟩
  | .messagesNotModified count => some ⟨[], count, true, offset⟩
  | .unknownResult => none

/-- Modelled from the spec: a remote search answering every query with the
single complete MessagesMessagesObj page that carries all of the topic's
messages. -/
def singlePage (msgs : List TgMessage) : Int → SearchPage :=
  fun off => ⟨msgs, Int.ofNat msgs.length, false, off⟩

/-- The per-page body of the Objects loop: a user message whose path-dirname
equals the topic title is appended to the object list; a user message
elsewhere is neither appended nor subtracted; every non-user entry is
subtracted from the running count. -/
def objectsScanPage (title : String) :
    List TgMessage → Int → List TgMessage → List TgMessage × Int
  | objects, items, [] => (objects, items)
  | objects, items, .messageObj id b date :: rest =>
    if pathDir b = title then
      objectsScanPage title (objects ++ [.messageObj id b date]) items rest
    else objectsScanPage title objects items rest
  | objects, items, _ :: rest => objectsScanPage title objects (items - 1) rest

/-- The pagination loop of Objects: add the page amount to the running
count, scan the page, and continue at the returned offset while the page is
incomplete and the returned offset differs from the queried one.  Fuelled;
the Go loop is unbounded. -/
def objectsLoop (pageFn : Int → SearchPage) (title : String) :
    Nat → Int → List TgMessage → Int → Option (List TgMessage × Int)
  | 0, _, _, _ => none
  | fuel+1, offset, objects, items =>
    let p := pageFn offset
    let st := objectsScanPage title objects (items + p.amount) p.messages
    if p.incomplete = true ∧ offset ≠ p.next then
      objectsLoop pageFn title fuel p.next st.1 st.2
    else some st

/-- The per-page body of the ObjectSearch loop: return the first user
message whose body equals the query; service and other entries are
skipped. -/
def searchScanPage (query : String) : List TgMessage → Option TgMessage
  | [] => none
  | .messageObj id b date :: rest =>
    if b = query then some (.messageObj id b date) else searchScanPage query rest
  | _ :: rest => searchScanPage query rest

/-- The pagination loop of ObjectSearch: stop with the match as soon as one
is found, continue at the returned offset while the page is incomplete and
the offset advances, otherwise report object-not-found (none inside some).
Fuelled; the Go loop is unbounded. -/
def objectSearchLoop (pageFn : Int → SearchPage) (query : String) :
    Nat → Int → Option (Option TgMessage)
  | 0, _ => none
  | fuel+1, offset =>
    let p := pageFn offset
    match searchScanPage query p.messages with
    | some m => some (some m)
    | none =>
      if p.incomplete = true ∧ offset ≠ p.next then
        objectSearchLoop pageFn query fuel p.next
      else some none

/-- The emptiness scan of the older Rmdir generation: accumulate page
amounts into the count, fail once the count exceeds one, and on an
incomplete page whose returned offset differs, continue — without ever
assigning the returned offset to the queried one.  Fuelled; the Go loop is
unbounded. -/
def rmdirScanLoopOld (pageFn : Int → SearchPage) : Nat → Int → Int → Option Bool
  | 0, _, _ => none
  | fuel+1, offset, count =>
    let p := pageFn offset
    let count1 := count + p.amount
    if 1 < count1 then some true
    else if p.incomplete = true ∧ offset ≠ p.next then
      rmdirScanLoopOld pageFn fuel offset count1
    else some false

/-- A remote behaviour on which the old scan cannot finish: every offset is
answered by an empty incomplete page with continuation offset 7. -/
def stuckPage : Int → SearchPage :=
  fun _ => ⟨[], 0, true, 7⟩

/-- Directory of the filesystem facade: scan the topic-search result and
keep the last topic whose title equals the query; none is
directory-not-found.  The remote topic search only narrows by the title
filter, so its result is modelled as the full topic list of the channel. -/
def directoryFind (topics : List ForumTopic) (query : String) : Option ForumTopic :=
  topics.foldl (fun acc t => if t.title = query then some t else acc) none

/-- DirectoriesFrom: the topics whose path-dirname of their title equals the
given topic's title — the direct children. -/
def directoriesFrom (topics : List ForumTopic) (t : ForumTopic) : List ForumTopic :=
  topics.filter (fun sub => decide (pathDir sub.title = t.title))

/-- Outcome of DeleteTopic: the root guard refuses with the
unsupported-operation error before any remote call; otherwise the remote
delete-topic-history call is issued (modelled as succeeding). -/
inductive DeleteOutcome where
  | unsupported
  | issued
deriving Repr, DecidableEq

/-- DeleteTopic with its root-topic guard. -/
def deleteTopic (t : ForumTopic) : DeleteOutcome :=
  if t.id = channelRootTopicId then .unsupported else .issued

/-- Results of Rmdir as surfaced to the caller. -/
inductive RmdirResult where
  | dirNotFound
  | directoryNotEmpty
  | notDeletingDirs
  | removed
deriving Repr, DecidableEq

/-- The final step of Rmdir: a DeleteTopic error (the root refusal) is
mapped to the not-deleting-dirs error, success removes the directory. -/
def rmdirDeleteStep (t : ForumTopic) : RmdirResult :=
  match deleteTopic t with
  | .unsupported => .notDeletingDirs
  | .issued => .removed

/-- Rmdir of the current filesystem facade: resolve the directory topic,
fail not-empty when it has child topics, fail not-empty when the Objects
count over its messages is positive, otherwise delete.  The message search
is the world-derived single complete page, on which the Objects loop
finishes within one iteration. -/
def rmdir (topics : List ForumTopic) (msgs : Int → List TgMessage) (query : String) :
    RmdirResult :=
  match directoryFind topics query with
  | none => .dirNotFound
  | some t =>
    if 0 < (directoriesFrom topics t).length then .directoryNotEmpty
    else
      match objectsLoop (singlePage (msgs t.id)) t.title 1 0 [] 0 with
      | none => .notDeletingDirs
      | some st =>
        if 0 < st.2 then .directoryNotEmpty
        else rmdirDeleteStep t

/-- Results of NewObject as surfaced to the caller. -/
inductive NewObjectResult where
  | dirNotFound
  | isDir
  | objectNotFound
  | found (m : TgMessage)
deriving Repr, DecidableEq

/-- NewObject of the filesystem facade: resolve the query's parent
directory (dir-not-found when absent); among its child topics an exact
title match means the query names a directory (is-a-directory error);
otherwise search the parent topic's messages for an exact body match. -/
def newObject (topics : List ForumTopic) (msgs : Int → List TgMessage) (query : String) :
    NewObjectResult :=
  match directoryFind topics (pathDir query) with
  | none => .dirNotFound
  | some topic =>
    if (directoriesFrom topics topic).any (fun sub => decide (sub.title = query)) then
      .isDir
    else
      match objectSearchLoop (singlePage (msgs topic.id)) query 1 0 with
      | some (some m) => .found m
      | some none => .objectNotFound
      | none => .objectNotFound

/-- Remote error shapes seen by the gateway: an RPC response-code failure
(gogram ErrResponseCode) or any other failure. -/
inductive TgError where
  | responseCode (code : Int)
  | otherFailure (tag : Nat)
deriving Repr, DecidableEq

/-- StatusTelegramFloodWait from the options: Telegram answers 420 when the
request is throttled. -/
def statusTelegramFloodWait : Int := 420

/-- The gateway closures request a retry exactly when the cause is a
response-code failure carrying the flood-wait status. -/
def isFloodWait : TgError → Bool
  | .responseCode c => decide (c = statusTelegramFloodWait)
  | .otherFailure _ => false

/-- Modelled from the spec: the pacer Call loop (rclone lib/pacer, not under
src) as configured by Connect with SetRetries.  The function attempt gives
the outcome of the k-th remote invocation (none is success).  A retryable
(flood-wait) failure is retried while retry budget remains; the last
budgeted failure, and any non-retryable failure, is surfaced verbatim. -/
def pacerCallGo (attempt : Nat → Option TgError) : Nat → Nat → Option TgError
  | _, 0 => none
  | k, n+1 =>
    match attempt k with
    | none => none
    | some e =>
      if isFloodWait e = true ∧ 0 < n then pacerCallGo attempt (k+1) n
      else some e

/-- Modelled from the spec: pacer Call with a maximum total number of
tries. -/
def pacerCall (maxRetries : Nat) (attempt : Nat → Option TgError) : Option TgError :=
  pacerCallGo attempt 0 maxRetries

/-- Update stream entries of the remote create call. -/
inductive TgUpdate where
  | newChannelMessage (m : TgMessage)
  | otherUpdate (tag : Nat)
deriving Repr, DecidableEq

/-- The creation-receipt scan of CreateTopic: the first new-channel-message
update carrying a service message yields the synthesized topic (its id and
date are the service message's). -/
def scanCreateReceipt (title : String) : List TgUpdate → Option ForumTopic
  | [] => none
  | .newChannelMessage (.messageService id date) :: _ => some ⟨id, title, date⟩
  | _ :: rest => scanCreateReceipt title rest

/-- The world CreateTopic runs against: the channel's topics, the id and
date the server will assign next, and the topic-list lookup cache (an
association list of currently valid entries). -/
structure CreateWorld where
  topics : List ForumTopic
  nextId : Int
  nextDate : Int
  cache : List (String × List ForumTopic)
deriving Repr, DecidableEq

/-- Lookup of a currently valid cache entry. -/
def cacheLookup : List (String × List ForumTopic) → String → Option (List ForumTopic)
  | [], _ => none
  | kv :: rest, key => if kv.1 = key then some kv.2 else cacheLookup rest key

/-- Modelled from the spec: the lookup cache Get of GetTopics (rclone
lib/cache, not under src).  A valid entry is returned as is with no remote
call; on a miss the loader runs — the remote topic search, which reports
success with its (possibly empty) topic list — and the result is stored.
Entries are invalidated only by TTL; creation does not purge them. -/
def getTopicsCached (w : CreateWorld) (search : String) : List ForumTopic × CreateWorld :=
  match cacheLookup w.cache search with
  | some v => (v, w)
  | none => (w.topics, { w with cache := (search, w.topics) :: w.cache })

/-- Modelled from the spec: TTL expiry of the cache entry for one key. -/
def expireCacheEntry (w : CreateWorld) (key : String) : CreateWorld :=
  { w with cache := w.cache.filter (fun kv => !(kv.1 == key)) }

/-- Modelled from the spec: the remote create-forum-topic call — the server
appends the topic under the next id and answers with an update stream
containing the creation service message. -/
def remoteCreateTopic (w : CreateWorld) (title : String) : List TgUpdate × CreateWorld :=
  ([.newChannelMessage (.messageService w.nextId w.nextDate)],
   { w with
      topics := w.topics ++ [⟨w.nextId, title, w.nextDate⟩],
      nextId := w.nextId + 1,
      nextDate := w.nextDate + 1 })

/-- CreateTopic: search the (cached) topic list for the exact title and
return an existing topic uncreated; otherwise issue the remote create and
scan the update stream for the creation receipt, returning the synthesized
topic and created = (topic found in the receipts). -/
def createTopic (w : CreateWorld) (title : String) :
    (Option ForumTopic × Bool) × CreateWorld :=
  let tw := getTopicsCached w title
  match tw.1.find? (fun t => decide (t.title = title)) with
  | some t => ((some t, false), tw.2)
  | none =>
    let uw := remoteCreateTopic tw.2 title
    let topic := scanCreateReceipt title uw.1
    ((topic, topic.isSome), uw.2)

/-- One chunk-hash record of the multipart checksum (telegram.FileHash):
offset, limit and the chunk digest bytes. -/
structure FileHashRec where
  offset : Int
  limit : Int
  hash : List Nat
deriving Repr, DecidableEq

/-- Stable insertion into an offset-sorted list: the new record passes every
element with a strictly smaller offset and stops before the first element
whose offset is not smaller — the insertion-sort form of sort.SliceStable
with the less function comparing offsets. -/
def insertByOffset (x : FileHashRec) : List FileHashRec → List FileHashRec
  | [] => [x]
  | y :: ys => if y.offset < x.offset then y :: insertByOffset x ys else x :: y :: ys

/-- Stable sort by offset (insertion sort). -/
def sortByOffset : List FileHashRec → List FileHashRec
  | [] => []
  | x :: xs => insertByOffset x (sortByOffset xs)

/-- Tail of the duplicate-offset removal: keep an element exactly when its
offset differs from the immediately preceding input element's offset. -/
def dedupGo (prev : FileHashRec) : List FileHashRec → List FileHashRec
  | [] => []
  | y :: ys => if y.offset ≠ prev.offset then y :: dedupGo y ys else dedupGo y ys

/-- Duplicate-offset removal of FromFileHash: the first element is always
kept. -/
def dedupByOffset : List FileHashRec → List FileHashRec
  | [] => []
  | x :: xs => x :: dedupGo x xs

/-- Modelled from the spec: json.Marshal of one FileHash record (Go standard
library), as a canonical field-by-field rendering.  The claims compare
digests only for equality and difference, which the rendering preserves. -/
def serializeRec (r : FileHashRec) : String :=
  "(offset:" ++ toString r.offset ++ ",limit:" ++ toString r.limit ++
    ",hash:" ++ toString r.hash ++ ")"

/-- Modelled from the spec: json.Marshal of the record list. -/
def serializeFileHashes (l : List FileHashRec) : String :=
  "[" ++ String.intercalate "," (l.map serializeRec) ++ "]"

/-- FromFileHash up to the final sha512: stable-sort by offset, remove
duplicate offsets, serialize.  The sha512 digest of this string is equal
exactly when the strings are equal (up to hash collisions), so the claims
are settled at this serialization level. -/
def fromFileHashData (hashes : List FileHashRec) : String :=
  serializeFileHashes (dedupByOffset (sortByOffset hashes))

/-- A user message whose path-dirname equals the given title: the entries
Objects returns. -/
def userInDir (title : String) : TgMessage → Bool
  | .messageObj _ b _ => decide (pathDir b = title)
  | _ => false

theorem splitSlash_no_slash : ∀ (l : List Char), ∀ e ∈ splitSlash l, '/' ∉ e := by
  intro l
  induction l with
  | nil =>
    intro e he
    simp [splitSlash] at he
    simp [he]
  | cons c cs ih =>
    intro e he
    by_cases hc : c = '/'
    · simp [splitSlash, hc] at he
      rcases he with he | he
      · simp [he]
      · exact ih e he
    · simp only [splitSlash, if_neg hc] at he
      rcases hw : splitSlash cs with _ | ⟨w, ws⟩
      · simp [hw] at he
        simp [he]
        intro h
        exact hc h.symm
      · rw [hw] at he
        rcases List.mem_cons.mp he with he | he
        · subst he
          intro hmem
          rcases List.mem_cons.mp hmem with h | h
          · exact hc h.symm
          · exact ih w (by rw [hw]; exact List.mem_cons_self w ws) h
        · exact ih e (by rw [hw]; exact List.mem_cons_of_mem w he)

theorem processElems_plain_stack (es : List (List Char))
    (hes : ∀ e ∈ es, '/' ∉ e) :
    ∀ stack, (∀ e ∈ stack, plainElem e) →
      ∀ e ∈ processElems true stack es, plainElem e := by
  induction es with
  | nil =>
    intro stack hstack
    simpa [processElems] using hstack
  | cons e es ih =>
    intro stack hstack
    have hes' : ∀ x ∈ es, '/' ∉ x := fun x hx => hes x (List.mem_cons_of_mem e hx)
    have heNoSlash : '/' ∉ e := hes e (List.mem_cons_self e es)
    by_cases h1 : e = [] ∨ e = ['.']
    · simp only [processElems, if_pos h1]
      exact ih hes' stack hstack
    · by_cases h2 : e = ['.', '.']
      · simp only [processElems, if_neg h1, if_pos h2]
        cases stack with
        | nil =>
          simp only [if_pos rfl]
          exact ih hes' [] (by intro x hx; exact absurd hx (List.not_mem_nil x))
        | cons top rest =>
          have htop : plainElem top := hstack top (List.mem_cons_self top rest)
          have : ¬ top = ['.', '.'] := htop.2.2.1
          simp only [if_neg this]
          exact ih hes' rest (fun x hx => hstack x (List.mem_cons_of_mem top hx))
      · simp only [processElems, if_neg h1, if_neg h2]
        refine ih hes' (e :: stack) ?_
        intro x hx
        rcases List.mem_cons.mp hx with hx | hx
        · subst hx
          refine ⟨?_, ?_, h2, heNoSlash⟩
          · intro h; exact h1 (Or.inl h)
          · intro h; exact h1 (Or.inr h)
        · exact hstack x hx

theorem splitSlash_append_slash (e : List Char) (he : '/' ∉ e) (r : List Char) :
    splitSlash (e ++ '/' :: r) = e :: splitSlash r := by
  induction e with
  | nil => simp [splitSlash]
  | cons c cs ih =>
    have hc : c ≠ '/' := by
      intro h; exact he (by simp [h])
    have hcs : '/' ∉ cs := fun h => he (List.mem_cons_of_mem c h)
    simp only [List.cons_append, splitSlash, if_neg hc, List.append_eq]
    rw [ih hcs]

theorem splitSlash_join_trail (es : List (List Char)) (hne : es ≠ [])
    (hnoslash : ∀ e ∈ es, '/' ∉ e) :
    splitSlash (joinElems es ++ ['/']) = es ++ [[]] := by
  induction es with
  | nil => exact absurd rfl hne
  | cons e es ih =>
    cases es with
    | nil =>
      have : splitSlash (e ++ '/' :: []) = e :: splitSlash [] :=
        splitSlash_append_slash e (hnoslash e (List.mem_cons_self e [])) []
      simpa [joinElems, splitSlash] using this
    | cons e2 es2 =>
      have hjoin : joinElems (e :: e2 :: es2) = e ++ '/' :: joinElems (e2 :: es2) := rfl
      have hstep : splitSlash (e ++ '/' :: (joinElems (e2 :: es2) ++ ['/'])) =
          e :: splitSlash (joinElems (e2 :: es2) ++ ['/']) :=
        splitSlash_append_slash e (hnoslash e (List.mem_cons_self e (e2 :: es2))) _
      have ihres := ih (by simp)
        (fun x hx => hnoslash x (List.mem_cons_of_mem e hx))
      calc splitSlash (joinElems (e :: e2 :: es2) ++ ['/'])
          = splitSlash (e ++ '/' :: (joinElems (e2 :: es2) ++ ['/'])) := by
            rw [hjoin]; simp
        _ = e :: splitSlash (joinElems (e2 :: es2) ++ ['/']) := hstep
        _ = e :: ((e2 :: es2) ++ [[]]) := by rw [ihres]
        _ = (e :: e2 :: es2) ++ [[]] := rfl

theorem processElems_push_plain (rooted : Bool) (es : List (List Char))
    (hes : ∀ e ∈ es, plainElem e ∨ e = []) :
    ∀ stack, processElems rooted stack es = (es.filter (fun e => !e.isEmpty)).reverse ++ stack := by
  induction es with
  | nil => intro stack; simp [processElems]
  | cons e es ih =>
    intro stack
    have hes' : ∀ x ∈ es, plainElem x ∨ x = [] :=
      fun x hx => hes x (List.mem_cons_of_mem e hx)
    rcases hes e (List.mem_cons_self e es) with hp | hnil
    · have h1 : ¬ (e = [] ∨ e = ['.']) := by
        intro h; rcases h with h | h
        · exact hp.1 h
        · exact hp.2.1 h
      have h2 : e ≠ ['.', '.'] := hp.2.2.1
      have hne : e.isEmpty = false := by
        cases e with
        | nil => exact absurd rfl hp.1
        | cons _ _ => rfl
      simp only [processElems, if_neg h1, if_neg h2, ih hes']
      simp [List.filter, hne]
    · subst hnil
      have h1 : ([] : List Char) = [] ∨ ([] : List Char) = ['.'] := Or.inl rfl
      simp only [processElems, if_pos h1, ih hes']
      simp [List.filter]

theorem joinElems_last_not_slash (es : List (List Char)) (hne : es ≠ [])
    (h : ∀ e ∈ es, e ≠ [] ∧ '/' ∉ e) :
    ∃ ch, (joinElems es).getLast? = some ch ∧ ch ≠ '/' := by
  induction es with
  | nil => exact absurd rfl hne
  | cons e es ih =>
    cases es with
    | nil =>
      have he := h e (List.mem_cons_self e [])
      rcases List.exists_cons_of_ne_nil he.1 with ⟨c, cs, hc⟩
      refine ⟨(c :: cs).getLast (by simp), ?_, ?_⟩
      · simp [joinElems, hc, List.getLast?_eq_getLast]
      · intro hcontra
        have : (c :: cs).getLast (by simp) ∈ c :: cs := List.getLast_mem _
        rw [hcontra] at this
        rw [← hc] at this
        exact he.2 this
    | cons e2 es2 =>
      rcases ih (by simp) (fun x hx => h x (List.mem_cons_of_mem e hx)) with ⟨ch, hch, hchne⟩
      refine ⟨ch, ?_, hchne⟩
      have hJ : joinElems (e :: e2 :: es2) = e ++ '/' :: joinElems (e2 :: es2) := rfl
      rcases hsplit : joinElems (e2 :: es2) with _ | ⟨j, js⟩
      · rw [hsplit] at hch
        simp at hch
      · rw [hJ, List.getLast?_append_of_ne_nil _ (by simp), hsplit,
          List.getLast?_cons_cons, ← hsplit, hch]

theorem cleanChars_rooted (p : List Char) (hp : p ≠ []) (hr : hasLeadSlash p = true) :
    cleanChars p = '/' :: joinElems (processElems true [] (splitSlash p)).reverse := by
  unfold cleanChars
  rw [if_neg hp]
  simp [hr]

theorem stack_elems_plain (p : List Char) :
    ∀ e ∈ processElems true [] (splitSlash p), plainElem e :=
  processElems_plain_stack (splitSlash p) (splitSlash_no_slash p) []
    (fun x hx => absurd hx (List.not_mem_nil x))

theorem cleanList_fixes_rooted_clean (st : List (List Char))
    (hst : ∀ e ∈ st, plainElem e) :
    cleanList ('/' :: joinElems st.reverse) = '/' :: joinElems st.reverse := by
  rcases hrev : st.reverse with _ | ⟨e0, es0⟩
  · have : st = [] := by
      have := congrArg List.reverse hrev
      simpa using this
    subst this
    decide
  · set es : List (List Char) := e0 :: es0 with hes
    have hesplain : ∀ e ∈ es, plainElem e := by
      intro e he
      exact hst e (by
        have : e ∈ st.reverse := by rw [hrev]; exact he
        exact List.mem_reverse.mp this)
    have hesnn : ∀ e ∈ es, e ≠ [] ∧ '/' ∉ e :=
      fun e he => ⟨(hesplain e he).1, (hesplain e he).2.2.2⟩
    rcases joinElems_last_not_slash es (by simp [hes]) hesnn with ⟨ch, hch, hchne⟩
    set out : List Char := joinElems es with hout
    have houtne : out ≠ [] := by
      intro h
      rw [h] at hch
      simp at hch
    have hlead : hasLeadSlash ('/' :: out) = true := by
      simp [hasLeadSlash]
    have htrail : hasTrailSlash ('/' :: out) = false := by
      simp only [hasTrailSlash, decide_eq_false_iff_not]
      rcases List.exists_cons_of_ne_nil houtne with ⟨o, os, ho⟩
      rw [ho, List.getLast?_cons_cons, ← ho, hch]
      intro hcontra
      exact hchne (by injection hcontra)
    have hs2split : splitSlash ('/' :: (out ++ ['/'])) = [] :: (es ++ [[]]) := by
      have h1 : splitSlash ('/' :: (out ++ ['/'])) = [] :: splitSlash (out ++ ['/']) := by
        simp [splitSlash]
      rw [h1, hout,
        splitSlash_join_trail es (by simp [hes]) (fun e he => (hesnn e he).2)]
    have hproc : processElems true [] ([] :: (es ++ [[]])) = es.reverse := by
      have hmix : ∀ e ∈ ([] :: (es ++ [[]]) : List (List Char)), plainElem e ∨ e = [] := by
        intro e he
        rcases List.mem_cons.mp he with he | he
        · exact Or.inr he
        · rcases List.mem_append.mp he with he | he
          · exact Or.inl (hesplain e he)
          · simp at he
            exact Or.inr he
      rw [processElems_push_plain true _ hmix []]
      have hself : es.filter (fun e => !e.isEmpty) = es := by
        refine List.filter_eq_self.mpr ?_
        intro e he
        rcases List.exists_cons_of_ne_nil (hesplain e he).1 with ⟨c, cs, hc⟩
        simp [hc]
      have hfilter : ([] :: (es ++ [[]])).filter (fun e => !e.isEmpty) = es := by
        simp [List.filter_append, hself]
      rw [hfilter]
      simp
    show cleanList ('/' :: out) = '/' :: out
    have hne : ('/' :: out : List Char) ≠ [] := by simp
    have hcl : cleanList ('/' :: out) = cleanChars (('/' :: out) ++ ['/']) := by
      unfold cleanList
      rw [if_neg hne]
      simp [hlead, htrail]
    rw [hcl]
    have hs2eq : ('/' :: out) ++ ['/'] = '/' :: (out ++ ['/']) := rfl
    rw [hs2eq, cleanChars_rooted _ (by simp) (by simp [hasLeadSlash]), hs2split, hproc,
      List.reverse_reverse, ← hout]

theorem cleanList_eq_of_ne_nil (l : List Char) (hnil : ¬ l = []) :
    cleanList l = cleanChars
      (if hasTrailSlash (if hasLeadSlash l = true then l else '/' :: l) = true
        then (if hasLeadSlash l = true then l else '/' :: l)
        else (if hasLeadSlash l = true then l else '/' :: l) ++ ['/']) := by
  unfold cleanList
  rw [if_neg hnil]

theorem ensure_lead_facts (l : List Char) (hnil : l ≠ []) :
    (if hasLeadSlash l = true then l else '/' :: l) ≠ [] ∧
    hasLeadSlash (if hasLeadSlash l = true then l else '/' :: l) = true := by
  by_cases h : hasLeadSlash l = true
  · rw [if_pos h]
    exact ⟨hnil, h⟩
  · rw [if_neg h]
    exact ⟨by simp, by simp [hasLeadSlash]⟩

theorem ensure_trail_facts (m : List Char) (hm : m ≠ []) (hlm : hasLeadSlash m = true) :
    (if hasTrailSlash m = true then m else m ++ ['/']) ≠ [] ∧
    hasLeadSlash (if hasTrailSlash m = true then m else m ++ ['/']) = true := by
  by_cases ht : hasTrailSlash m = true
  · rw [if_pos ht]
    exact ⟨hm, hlm⟩
  · rw [if_neg ht]
    refine ⟨by simp, ?_⟩
    rcases List.exists_cons_of_ne_nil hm with ⟨c, cs, hc⟩
    subst hc
    simpa [hasLeadSlash] using hlm

/-- C8: the path canonicalization function Clean of the repository's path
utilities is idempotent: Clean (Clean p) = Clean p for every path string p. -/
theorem clean_idempotent (p : String) : Clean (Clean p) = Clean p := by
  show (⟨cleanList (⟨cleanList p.data⟩ : String).data⟩ : String) = ⟨cleanList p.data⟩
  congr 1
  show cleanList (cleanList p.data) = cleanList p.data
  by_cases hnil : p.data = []
  · rw [hnil]
    decide
  · rcases ensure_lead_facts p.data hnil with ⟨h1ne, h1lead⟩
    rcases ensure_trail_facts _ h1ne h1lead with ⟨h2ne, h2lead⟩
    rw [cleanList_eq_of_ne_nil p.data hnil, cleanChars_rooted _ h2ne h2lead]
    exact cleanList_fixes_rooted_clean _ (stack_elems_plain _)

/-- C1: the emptiness scan of the older Rmdir generation never assigns the
returned continuation offset to the one it queries: on a remote behaviour
answering every offset with an empty incomplete page whose continuation
offset advances to 7, the scan never finishes for any number of iterations
— while the Objects and ObjectSearch loops, which do update their offset
and treat a non-advancing offset as final, stop on the very same behaviour
after the second page repeats its offset. -/
theorem rmdir_scan_never_finishes :
    (∀ fuel, rmdirScanLoopOld stuckPage fuel 0 0 = none) ∧
    objectsLoop stuckPage ("/root/a") 2 0 [] 0 = some ([], 0) ∧
    objectSearchLoop stuckPage ("/root/a/f") 2 0 = some none := by
  refine ⟨?_, by decide, by decide⟩
  intro fuel
  induction fuel with
  | zero => rfl
  | succ n ih => simpa [rmdirScanLoopOld, stuckPage] using ih

/-- C4: DeleteTopic refuses a topic carrying the distinguished root topic
id with the unsupported-operation error before any remote call, regardless
of the topic's contents, and issues the remote delete for every other
topic. -/
theorem delete_topic_root_guard (t : ForumTopic) :
    (t.id = channelRootTopicId → deleteTopic t = .unsupported) ∧
    (t.id ≠ channelRootTopicId → deleteTopic t = .issued) := by
  constructor
  · intro h
    simp [deleteTopic, h]
  · intro h
    simp [deleteTopic, h]

/-- Witness for C4 at the root topic (id 1) and an ordinary topic (id 2). -/
theorem delete_topic_root_guard_witness :
    deleteTopic ⟨1, ("/root"), 0⟩ = .unsupported ∧
    deleteTopic ⟨2, ("/root/a"), 0⟩ = .issued :=
  ⟨(delete_topic_root_guard ⟨1, ("/root"), 0⟩).1 rfl,
   (delete_topic_root_guard ⟨2, ("/root/a"), 0⟩).2 (by decide)⟩

/-- C9: for the channel-messages result shape, SearchMessagesTopic reports
the page incomplete whenever the server total Count is positive — even when
the page already carries every matching message — and reports Count itself
as the page amount rather than the number of carried messages. -/
theorem channel_messages_shape_reports_count (ms : List TgMessage)
    (count off offIn : Int) (h : 0 < count) :
    searchMessagesTopicDispatch offIn (.channelMessages ms count off) =
      some ⟨ms, count, true, off⟩ := by
  simp [searchMessagesTopicDispatch, h]

/-- Witness for C9 at a page whose Count (1) equals the number of carried
messages, so every matching message is already in the page, yet the page is
reported incomplete with amount Count. -/
theorem channel_messages_shape_reports_count_witness :
    searchMessagesTopicDispatch 0
      (.channelMessages [.messageObj 3 ("/root/a/f") 0] 1 5) =
      some ⟨[.messageObj 3 ("/root/a/f") 0], 1, true, 5⟩ :=
  channel_messages_shape_reports_count [.messageObj 3 ("/root/a/f") 0] 1 5 0 (by decide)

/-- C10: in Objects a user message whose path-dirname differs from the
topic title is excluded from the returned object list yet not subtracted
from the running count: at this input the loop returns an empty object list
with count 1, which exceeds the list's length. -/
theorem objects_count_exceeds_list :
    objectsLoop (singlePage [.messageObj 5 ("/other/f") 0]) ("/root/a") 1 0 [] 0 =
      some ([], 1) ∧
    (Int.ofNat (List.length ([] : List TgMessage)) < 1) := by
  exact ⟨by decide, by decide⟩

theorem objectsScanPage_spec (title : String) :
    ∀ (ms : List TgMessage) (objects : List TgMessage) (items : Int),
      objectsScanPage title objects items ms =
        (objects ++ ms.filter (userInDir title),
         items - Int.ofNat (ms.countP (fun m => !isUserMessage m))) := by
  intro ms
  induction ms with
  | nil =>
    intro objects items
    simp [objectsScanPage]
  | cons m rest ih =>
    intro objects items
    cases m with
    | messageObj id b date =>
      by_cases hdir : pathDir b = title
      · rw [objectsScanPage, if_pos hdir, ih]
        simp [List.filter, userInDir, hdir, isUserMessage, List.countP_cons]
      · rw [objectsScanPage, if_neg hdir, ih]
        simp [List.filter, userInDir, hdir, isUserMessage, List.countP_cons]
    | messageService id date =>
      rw [objectsScanPage, ih]
      have hfil : List.filter (userInDir title) (TgMessage.messageService id date :: rest) =
          List.filter (userInDir title) rest := by
        rw [List.filter_cons]
        simp only [show userInDir title (TgMessage.messageService id date) = false from rfl]
        simp
      rw [hfil, List.countP_cons,
        if_pos (show (!isUserMessage (TgMessage.messageService id date)) = true from rfl),
        Prod.mk.injEq]
      refine ⟨rfl, ?_⟩
      · simp only [Int.ofNat_eq_natCast]
        omega
      · exact fun _ _ _ hcontra => nomatch hcontra
    | messageEmpty id =>
      rw [objectsScanPage, ih]
      have hfil : List.filter (userInDir title) (TgMessage.messageEmpty id :: rest) =
          List.filter (userInDir title) rest := by
        rw [List.filter_cons]
        simp only [show userInDir title (TgMessage.messageEmpty id) = false from rfl]
        simp
      rw [hfil, List.countP_cons,
        if_pos (show (!isUserMessage (TgMessage.messageEmpty id)) = true from rfl),
        Prod.mk.injEq]
      refine ⟨rfl, ?_⟩
      · simp only [Int.ofNat_eq_natCast]
        omega
      · exact fun _ _ _ hcontra => nomatch hcontra

theorem countP_user_split (ms : List TgMessage) :
    ms.countP isUserMessage + ms.countP (fun m => !isUserMessage m) = ms.length := by
  induction ms with
  | nil => rfl
  | cons m rest ih =>
    rw [List.countP_cons, List.countP_cons, List.length_cons]
    cases h : isUserMessage m
    · simp only [Bool.not_false]
      rw [if_pos trivial, if_neg (by decide : ¬ ((false : Bool) = true))]
      omega
    · simp only [Bool.not_true]
      rw [if_pos trivial, if_neg (by decide : ¬ ((false : Bool) = true))]
      omega

theorem objects_single_page (title : String) (ms : List TgMessage) :
    objectsLoop (singlePage ms) title 1 0 [] 0 =
      some (ms.filter (userInDir title), Int.ofNat (ms.countP isUserMessage)) := by
  have hsplit := countP_user_split ms
  rw [objectsLoop]
  simp only [singlePage, objectsScanPage_spec]
  norm_num
  omega

theorem objects_count_pos_iff (ms : List TgMessage) :
    0 < Int.ofNat (ms.countP isUserMessage) ↔ ∃ m ∈ ms, isUserMessage m = true := by
  rw [Int.ofNat_eq_natCast, Int.natCast_pos]
  exact List.countP_pos_iff

theorem rmdirDeleteStep_ne_notEmpty (t : ForumTopic) :
    rmdirDeleteStep t ≠ .directoryNotEmpty := by
  unfold rmdirDeleteStep
  cases h : deleteTopic t <;> simp

/-- C2: for an existing directory (a topic the resolver finds for the
query), Rmdir fails with the directory-not-empty error exactly when the
directory has at least one child topic (path-dirname of its title equal to
the directory's title) or at least one user (non-service, non-system)
message inside it; with neither, Rmdir's result is exactly the outcome of
the DeleteTopic call it then issues. -/
theorem rmdir_not_empty_iff (topics : List ForumTopic) (msgs : Int → List TgMessage)
    (query : String) (t : ForumTopic) (h : directoryFind topics query = some t) :
    (rmdir topics msgs query = .directoryNotEmpty ↔
      directoriesFrom topics t ≠ [] ∨ ∃ m ∈ msgs t.id, isUserMessage m = true) ∧
    ((directoriesFrom topics t = [] ∧ ∀ m ∈ msgs t.id, isUserMessage m = false) →
      rmdir topics msgs query = rmdirDeleteStep t) := by
  unfold rmdir
  simp only [h]
  by_cases hch : directoriesFrom topics t = []
  · have hlen : ¬ 0 < (directoriesFrom topics t).length := by
      rw [hch]
      simp
    rw [if_neg hlen]
    simp only [objects_single_page]
    by_cases hpos : 0 < Int.ofNat ((msgs t.id).countP isUserMessage)
    · constructor
      · rw [if_pos hpos]
        simp only [true_iff]
        exact Or.inr ((objects_count_pos_iff (msgs t.id)).mp hpos)
      · intro ⟨_, hnone⟩
        rcases (objects_count_pos_iff (msgs t.id)).mp hpos with ⟨m, hm, hu⟩
        rw [hnone m hm] at hu
        cases hu
    · constructor
      · rw [if_neg hpos]
        constructor
        · intro hcontra
          exact absurd hcontra (rmdirDeleteStep_ne_notEmpty t)
        · intro hcontra
          rcases hcontra with hcontra | hcontra
          · exact absurd hch hcontra
          · exact absurd ((objects_count_pos_iff (msgs t.id)).mpr hcontra) hpos
      · intro _
        rw [if_neg hpos]
  · have hlen : 0 < (directoriesFrom topics t).length :=
      List.length_pos.mpr hch
    rw [if_pos hlen]
    constructor
    · simp only [true_iff]
      exact Or.inl hch
    · intro ⟨hc, _⟩
      exact absurd hc hch

/-- Witness for C2: a directory with no children and no messages is
removed (the delete call is issued and succeeds). -/
theorem rmdir_not_empty_iff_witness :
    rmdir [⟨2, ("/root/a"), 0⟩] (fun _ => []) ("/root/a") = .removed := by
  have h := (rmdir_not_empty_iff [⟨2, ("/root/a"), 0⟩] (fun _ => [])
      ("/root/a") ⟨2, ("/root/a"), 0⟩ (by decide)).2 ⟨by decide, by decide⟩
  rw [h]
  decide

theorem searchScanPage_matches (query : String) :
    ∀ (ms : List TgMessage) (m : TgMessage), searchScanPage query ms = some m →
      isUserMessage m = true ∧ messageBody m = query := by
  intro ms
  induction ms with
  | nil =>
    intro m hm
    cases hm
  | cons x rest ih =>
    intro m hm
    cases x with
    | messageObj id b date =>
      by_cases hb : b = query
      · rw [searchScanPage, if_pos hb] at hm
        cases hm
        exact ⟨rfl, hb⟩
      · rw [searchScanPage, if_neg hb] at hm
        exact ih m hm
    | messageService id date => exact ih m hm
    | messageEmpty id => exact ih m hm

theorem object_search_single_page (query : String) (ms : List TgMessage) :
    objectSearchLoop (singlePage ms) query 1 0 = some (searchScanPage query ms) := by
  rw [objectSearchLoop]
  cases hscan : searchScanPage query ms <;> simp [singlePage, hscan]

/-- C5: with the query's parent directory resolved, NewObject reports the
is-a-directory error exactly when some child topic's title equals the
query; any message it returns has body equal to the query; and when no
child topic matches, the result is either object-not-found or a message
whose body equals the query. -/
theorem new_object_spec (topics : List ForumTopic) (msgs : Int → List TgMessage)
    (query : String) (topic : ForumTopic)
    (h : directoryFind topics (pathDir query) = some topic) :
    (newObject topics msgs query = .isDir ↔
      ∃ sub ∈ directoriesFrom topics topic, sub.title = query) ∧
    (∀ m, newObject topics msgs query = .found m → messageBody m = query) ∧
    ((¬ ∃ sub ∈ directoriesFrom topics topic, sub.title = query) →
      newObject topics msgs query = .objectNotFound ∨
      ∃ m, newObject topics msgs query = .found m ∧ messageBody m = query) := by
  unfold newObject
  simp only [h]
  by_cases hany :
      (directoriesFrom topics topic).any (fun sub => decide (sub.title = query)) = true
  · rw [if_pos hany]
    have hex : ∃ sub ∈ directoriesFrom topics topic, sub.title = query := by
      rcases List.any_eq_true.mp hany with ⟨sub, hsub, hdec⟩
      exact ⟨sub, hsub, of_decide_eq_true hdec⟩
    refine ⟨by simp [hex], ?_, ?_⟩
    · intro m hm
      cases hm
    · intro hcontra
      exact absurd hex hcontra
  · rw [if_neg hany]
    have hnex : ¬ ∃ sub ∈ directoriesFrom topics topic, sub.title = query := by
      intro ⟨sub, hsub, htitle⟩
      exact hany (List.any_eq_true.mpr ⟨sub, hsub, decide_eq_true htitle⟩)
    simp only [object_search_single_page]
    cases hscan : searchScanPage query (msgs topic.id) with
    | none =>
      refine ⟨by simp [hnex], ?_, fun _ => Or.inl rfl⟩
      intro m hm
      cases hm
    | some m =>
      have hbody := searchScanPage_matches query (msgs topic.id) m hscan
      refine ⟨by simp [hnex], ?_, ?_⟩
      · intro m2 hm2
        cases hm2
        exact hbody.2
      · intro _
        exact Or.inr ⟨m, rfl, hbody.2⟩

/-- Witness for C5: a world where the queried path is itself a topic title
makes NewObject answer is-a-directory, not object-not-found. -/
theorem new_object_spec_witness :
    newObject [⟨1, ("/root"), 0⟩, ⟨2, ("/root/a"), 0⟩] (fun _ => []) ("/root/a") =
      .isDir :=
  (new_object_spec [⟨1, ("/root"), 0⟩, ⟨2, ("/root/a"), 0⟩] (fun _ => [])
      ("/root/a") ⟨1, ("/root"), 0⟩ (by decide)).1.mpr
    ⟨⟨2, ("/root/a"), 0⟩, by decide, rfl⟩

theorem cacheLookup_filter_none (cache : List (String × List ForumTopic)) (key : String) :
    cacheLookup (cache.filter (fun kv => !(kv.1 == key))) key = none := by
  induction cache with
  | nil => rfl
  | cons kv rest ih =>
    rw [List.filter_cons]
    by_cases hk : kv.1 = key
    · simp only [hk]
      simp only [beq_self_eq_true, Bool.not_true]
      rw [if_neg (by decide : ¬ ((false : Bool) = true))]
      exact ih
    · have : (!(kv.1 == key)) = true := by
        simp [hk]
      rw [if_pos this, cacheLookup, if_neg hk]
      exact ih

/-- Reduction of CreateTopic on a cache miss over a topic list without the
title: the remote create runs and the receipt is synthesized. -/
theorem createTopic_miss (w : CreateWorld) (title : String)
    (hCache : cacheLookup w.cache title = none)
    (hfind : w.topics.find? (fun t => decide (t.title = title)) = none) :
    createTopic w title =
      ((some ⟨w.nextId, title, w.nextDate⟩, true),
        { topics := w.topics ++ [⟨w.nextId, title, w.nextDate⟩],
          nextId := w.nextId + 1,
          nextDate := w.nextDate + 1,
          cache := (title, w.topics) :: w.cache }) := by
  unfold createTopic getTopicsCached remoteCreateTopic
  simp only [hCache, hfind]
  rfl

/-- Reduction of CreateTopic on a cache miss whose loaded topic list finds
the title: the existing topic is returned uncreated. -/
theorem createTopic_found (w : CreateWorld) (title : String)
    (t : ForumTopic) (hCache : cacheLookup w.cache title = none)
    (hfind : w.topics.find? (fun t => decide (t.title = title)) = some t) :
    createTopic w title =
      ((some t, false), { w with cache := (title, w.topics) :: w.cache }) := by
  unfold createTopic getTopicsCached
  simp only [hCache, hfind]

/-- C3 (amended): CreateTopic is idempotent provided the topic-list cache
entry for the title is not served stale between the calls — here, the entry
expires before the second call.  Starting from a world without the topic,
the first call creates it (created = true) and the second call finds the
created topic and returns it with created = false, identical title and
id. -/
theorem create_topic_idempotent_after_expiry (w : CreateWorld) (title : String)
    (hNo : ∀ t ∈ w.topics, t.title ≠ title)
    (hCache : cacheLookup w.cache title = none) :
    (createTopic w title).1.2 = true ∧
    (createTopic (expireCacheEntry (createTopic w title).2 title) title).1.2 = false ∧
    ∃ t : ForumTopic, t.title = title ∧
      (createTopic w title).1.1 = some t ∧
      (createTopic (expireCacheEntry (createTopic w title).2 title) title).1.1 = some t := by
  have hfind : w.topics.find? (fun t => decide (t.title = title)) = none := by
    rw [List.find?_eq_none]
    intro x hx
    simp [hNo x hx]
  have h1 := createTopic_miss w title hCache hfind
  have hcache2 :
      cacheLookup (expireCacheEntry (createTopic w title).2 title).cache title = none := by
    rw [h1]
    exact cacheLookup_filter_none _ title
  have htopics2 : (expireCacheEntry (createTopic w title).2 title).topics =
      w.topics ++ [⟨w.nextId, title, w.nextDate⟩] := by
    rw [h1]
    rfl
  have hfind2 : (expireCacheEntry (createTopic w title).2 title).topics.find?
      (fun t => decide (t.title = title)) = some ⟨w.nextId, title, w.nextDate⟩ := by
    rw [htopics2, List.find?_append, hfind, Option.none_or]
    rw [List.find?_cons_of_pos _ (by simp)]
  have h2 := createTopic_found (expireCacheEntry (createTopic w title).2 title) title
    _ hcache2 hfind2
  refine ⟨by rw [h1], by rw [h2], ⟨w.nextId, title, w.nextDate⟩, rfl, by rw [h1], by rw [h2]⟩

/-- C3 counterexample: with the topic-list cache still valid (as it is
when the two calls happen within one TTL window), CreateTopic called twice
with the same title creates twice — both calls report created = true and
the returned topics carry different ids (10, then 11). -/
theorem create_topic_twice_duplicates :
    (createTopic ⟨[], 10, 100, []⟩ ("/root/a")).1 =
        (some ⟨10, ("/root/a"), 100⟩, true) ∧
    (createTopic (createTopic ⟨[], 10, 100, []⟩ ("/root/a")).2 ("/root/a")).1 =
        (some ⟨11, ("/root/a"), 101⟩, true) := by
  exact ⟨by decide, by decide⟩

/-- Witness for the amended C3 at a concrete world. -/
theorem create_topic_idempotent_after_expiry_witness :
    (createTopic ⟨[], 10, 100, []⟩ ("/root/a")).1.2 = true ∧
    (createTopic (expireCacheEntry (createTopic ⟨[], 10, 100, []⟩ ("/root/a")).2
        ("/root/a")) ("/root/a")).1.2 = false ∧
    ∃ t : ForumTopic, t.title = ("/root/a") ∧
      (createTopic ⟨[], 10, 100, []⟩ ("/root/a")).1.1 = some t ∧
      (createTopic (expireCacheEntry (createTopic ⟨[], 10, 100, []⟩ ("/root/a")).2
          ("/root/a")) ("/root/a")).1.1 = some t :=
  create_topic_idempotent_after_expiry ⟨[], 10, 100, []⟩ ("/root/a")
    (fun _ ht => nomatch ht) rfl

theorem pacerCallGo_flood_run (attempt : Nat → Option TgError) :
    ∀ (j k n : Nat),
      (∀ i, i < j → ∃ e, attempt (k + i) = some e ∧ isFloodWait e = true) →
      attempt (k + j) = none → j < n → pacerCallGo attempt k n = none := by
  intro j
  induction j with
  | zero =>
    intro k n _ hsucc hlt
    cases n with
    | zero => cases hlt
    | succ n =>
      rw [pacerCallGo]
      rw [Nat.add_zero] at hsucc
      rw [hsucc]
  | succ j ih =>
    intro k n hflood hsucc hlt
    cases n with
    | zero => cases hlt
    | succ n =>
      rcases hflood 0 (Nat.succ_pos j) with ⟨e, he, hfw⟩
      rw [Nat.add_zero] at he
      rw [pacerCallGo]
      simp only [he]
      rw [if_pos ⟨hfw, by omega⟩]
      refine ih (k + 1) n ?_ ?_ (by omega)
      · intro i hi
        rcases hflood (i + 1) (by omega) with ⟨e2, he2, hfw2⟩
        exact ⟨e2, by rw [show k + 1 + i = k + (i + 1) from by omega]; exact he2, hfw2⟩
      · rw [show k + 1 + j = k + (j + 1) from by omega]
        exact hsucc

theorem pacerCallGo_flood_exhaust (attempt : Nat → Option TgError) (e : TgError)
    (hfw : isFloodWait e = true) (hall : ∀ i, attempt i = some e) :
    ∀ (n k : Nat), pacerCallGo attempt k (n + 1) = some e := by
  intro n
  induction n with
  | zero =>
    intro k
    rw [pacerCallGo]
    simp only [hall k]
    rw [if_neg (fun h => Nat.lt_irrefl 0 h.2)]
  | succ n ih =>
    intro k
    rw [pacerCallGo]
    simp only [hall k]
    rw [if_pos ⟨hfw, Nat.succ_pos n⟩]
    exact ih (k + 1)

/-- C6: through the gateway pacer, a failure other than the flood-wait
status is returned immediately with no retry; a run of flood-wait (420)
failures shorter than the retry budget is absorbed and the first success is
returned with no error surfaced; and when every attempt keeps failing with
the flood-wait error, that error is surfaced once the budget is
exhausted. -/
theorem gateway_retry_policy :
    (∀ (attempt : Nat → Option TgError) (e : TgError) (R : Nat),
      isFloodWait e = false → attempt 0 = some e →
        pacerCall (R + 1) attempt = some e) ∧
    (∀ (attempt : Nat → Option TgError) (j R : Nat),
      (∀ i, i < j → ∃ e, attempt i = some e ∧ isFloodWait e = true) →
      attempt j = none → j < R →
        pacerCall R attempt = none) ∧
    (∀ (attempt : Nat → Option TgError) (e : TgError) (R : Nat),
      isFloodWait e = true → (∀ i, attempt i = some e) →
        pacerCall (R + 1) attempt = some e) := by
  refine ⟨?_, ?_, ?_⟩
  · intro attempt e R hfw h0
    rw [pacerCall, pacerCallGo]
    simp only [h0]
    rw [if_neg (show ¬ (isFloodWait e = true ∧ 0 < R) from fun hcontra => by
      rw [hfw] at hcontra
      exact absurd hcontra.1 (by decide))]
  · intro attempt j R hflood hsucc hlt
    refine pacerCallGo_flood_run attempt j 0 R ?_ ?_ hlt
    · intro i hi
      simpa using hflood i hi
    · simpa using hsucc
  · intro attempt e R hfw hall
    exact pacerCallGo_flood_exhaust attempt e hfw hall R 0

/-- Witness for C6: a non-flood failure surfaces immediately; three
throttles inside a budget of five are absorbed and the call succeeds; a
permanent throttle exhausts a budget of three and surfaces the 420 error. -/
theorem gateway_retry_policy_witness :
    pacerCall 5 (fun _ => some (.otherFailure 9)) = some (.otherFailure 9) ∧
    pacerCall 5 (fun k => if k < 3 then some (.responseCode 420) else none) = none ∧
    pacerCall 3 (fun _ => some (.responseCode 420)) = some (.responseCode 420) :=
  ⟨gateway_retry_policy.1 (fun _ => some (.otherFailure 9)) (.otherFailure 9) 4 rfl rfl,
   gateway_retry_policy.2.1 (fun k => if k < 3 then some (.responseCode 420) else none)
     3 5 (fun i hi => ⟨.responseCode 420, by simp [hi], rfl⟩) (by decide) (by decide),
   gateway_retry_policy.2.2 (fun _ => some (.responseCode 420)) (.responseCode 420) 2
     rfl (fun _ => rfl)⟩

theorem insertByOffset_perm (x : FileHashRec) :
    ∀ l : List FileHashRec, (insertByOffset x l).Perm (x :: l) := by
  intro l
  induction l with
  | nil => exact List.Perm.refl _
  | cons y ys ih =>
    rw [insertByOffset]
    by_cases h : y.offset < x.offset
    · rw [if_pos h]
      exact (ih.cons y).trans (List.Perm.swap x y ys)
    · rw [if_neg h]

theorem sortByOffset_perm : ∀ l : List FileHashRec, (sortByOffset l).Perm l := by
  intro l
  induction l with
  | nil => exact List.Perm.refl _
  | cons x xs ih =>
    rw [sortByOffset]
    exact (insertByOffset_perm x (sortByOffset xs)).trans (ih.cons x)

theorem insertByOffset_sorted (x : FileHashRec) :
    ∀ l : List FileHashRec, l.Pairwise (fun a b => a.offset ≤ b.offset) →
      (insertByOffset x l).Pairwise (fun a b => a.offset ≤ b.offset) := by
  intro l
  induction l with
  | nil =>
    intro _
    exact List.pairwise_singleton _ _
  | cons y ys ih =>
    intro hp
    rcases List.pairwise_cons.mp hp with ⟨hy, hys⟩
    rw [insertByOffset]
    by_cases h : y.offset < x.offset
    · rw [if_pos h]
      refine List.pairwise_cons.mpr ⟨?_, ih hys⟩
      intro z hz
      rcases List.mem_cons.mp ((insertByOffset_perm x ys).mem_iff.mp hz) with hz2 | hz2
      · subst hz2
        exact Int.le_of_lt h
      · exact hy z hz2
    · rw [if_neg h]
      have hxy : x.offset ≤ y.offset := Int.not_lt.mp h
      refine List.pairwise_cons.mpr ⟨?_, hp⟩
      intro z hz
      rcases List.mem_cons.mp hz with hz2 | hz2
      · subst hz2
        exact hxy
      · exact Int.le_trans hxy (hy z hz2)

theorem sortByOffset_sorted :
    ∀ l : List FileHashRec,
      (sortByOffset l).Pairwise (fun a b => a.offset ≤ b.offset) := by
  intro l
  induction l with
  | nil => exact List.Pairwise.nil
  | cons x xs ih =>
    rw [sortByOffset]
    exact insertByOffset_sorted x (sortByOffset xs) ih

theorem pairwise_lt_eq_of_perm :
    ∀ (l1 l2 : List FileHashRec), l1.Perm l2 →
      l1.Pairwise (fun a b => a.offset < b.offset) →
      l2.Pairwise (fun a b => a.offset < b.offset) → l1 = l2 := by
  intro l1
  induction l1 with
  | nil =>
    intro l2 hperm _ _
    exact (hperm.symm.eq_nil).symm
  | cons a t1 ih =>
    intro l2 hperm hp1 hp2
    cases l2 with
    | nil => exact absurd hperm.eq_nil (by simp)
    | cons b t2 =>
      rcases List.pairwise_cons.mp hp1 with ⟨ha, hp1t⟩
      rcases List.pairwise_cons.mp hp2 with ⟨hb, hp2t⟩
      have hab : a = b := by
        by_contra hne
        have haT2 : a ∈ t2 := by
          rcases List.mem_cons.mp (hperm.subset (List.mem_cons_self a t1)) with h | h
          · exact absurd h hne
          · exact h
        have hbT1 : b ∈ t1 := by
          rcases List.mem_cons.mp (hperm.symm.subset (List.mem_cons_self b t2)) with h | h
          · exact absurd h.symm hne
          · exact h
        have h1 := ha b hbT1
        have h2 := hb a haT2
        omega
      subst hab
      rw [ih t2 hperm.cons_inv hp1t hp2t]

theorem pairwise_lt_of_sorted_nodup (l : List FileHashRec)
    (hs : l.Pairwise (fun a b => a.offset ≤ b.offset))
    (hn : (l.map (fun r => r.offset)).Nodup) :
    l.Pairwise (fun a b => a.offset < b.offset) := by
  have hne : l.Pairwise (fun a b => a.offset ≠ b.offset) := List.pairwise_map.mp hn
  exact (hs.and hne).imp (fun h => Int.lt_iff_le_and_ne.mpr ⟨h.1, h.2⟩)

theorem sortByOffset_eq_of_perm_nodup (l1 l2 : List FileHashRec)
    (hperm : l1.Perm l2) (hn : (l1.map (fun r => r.offset)).Nodup) :
    sortByOffset l1 = sortByOffset l2 := by
  have hp1 := sortByOffset_perm l1
  have hp2 := sortByOffset_perm l2
  have hn2 : (l2.map (fun r => r.offset)).Nodup := ((hperm.map _).nodup_iff).mp hn
  have hn1s : ((sortByOffset l1).map (fun r => r.offset)).Nodup :=
    ((hp1.map _).nodup_iff).mpr hn
  have hn2s : ((sortByOffset l2).map (fun r => r.offset)).Nodup :=
    ((hp2.map _).nodup_iff).mpr hn2
  exact pairwise_lt_eq_of_perm (sortByOffset l1) (sortByOffset l2)
    ((hp1.trans hperm).trans hp2.symm)
    (pairwise_lt_of_sorted_nodup _ (sortByOffset_sorted l1) hn1s)
    (pairwise_lt_of_sorted_nodup _ (sortByOffset_sorted l2) hn2s)

theorem insertByOffset_decomp (x : FileHashRec) :
    ∀ l : List FileHashRec, ∃ u1 u2, insertByOffset x l = u1 ++ x :: u2 ∧
      ∀ z ∈ u1, z.offset < x.offset := by
  intro l
  induction l with
  | nil =>
    exact ⟨[], [], rfl, fun z hz => absurd hz (List.not_mem_nil z)⟩
  | cons y ys ih =>
    rw [insertByOffset]
    by_cases h : y.offset < x.offset
    · rw [if_pos h]
      rcases ih with ⟨u1, u2, heq, hlt⟩
      refine ⟨y :: u1, u2, by rw [heq]; rfl, ?_⟩
      intro z hz
      rcases List.mem_cons.mp hz with hz2 | hz2
      · subst hz2
        exact h
      · exact hlt z hz2
    · rw [if_neg h]
      exact ⟨[], y :: ys, rfl, fun z hz => absurd hz (List.not_mem_nil z)⟩

theorem insertByOffset_at_dup (x : FileHashRec) :
    ∀ (u1 u2 : List FileHashRec), (∀ z ∈ u1, z.offset < x.offset) →
      insertByOffset x (u1 ++ x :: u2) = u1 ++ x :: x :: u2 := by
  intro u1
  induction u1 with
  | nil =>
    intro u2 _
    rw [List.nil_append, insertByOffset, if_neg (Int.lt_irrefl x.offset)]
    rfl
  | cons z u1' ih =>
    intro u2 hlt
    have hz := hlt z (List.mem_cons_self z u1')
    rw [List.cons_append, insertByOffset, if_pos hz,
      ih u2 (fun w hw => hlt w (List.mem_cons_of_mem z hw))]
    rfl

theorem insertByOffset_pair (z x : FileHashRec) :
    ∀ (s1 s2 : List FileHashRec), ∃ t1 t2,
      insertByOffset z (s1 ++ x :: x :: s2) = t1 ++ x :: x :: t2 ∧
      insertByOffset z (s1 ++ x :: s2) = t1 ++ x :: t2 := by
  intro s1
  induction s1 with
  | nil =>
    intro s2
    by_cases hx : x.offset < z.offset
    · refine ⟨[], insertByOffset z s2, ?_, ?_⟩
      · rw [List.nil_append, insertByOffset, if_pos hx, insertByOffset, if_pos hx]
        rfl
      · rw [List.nil_append, insertByOffset, if_pos hx]
        rfl
    · refine ⟨[z], s2, ?_, ?_⟩
      · rw [List.nil_append, insertByOffset, if_neg hx]
        rfl
      · rw [List.nil_append, insertByOffset, if_neg hx]
        rfl
  | cons y s1' ih =>
    intro s2
    by_cases hy : y.offset < z.offset
    · rcases ih s2 with ⟨t1, t2, h1, h2⟩
      refine ⟨y :: t1, t2, ?_, ?_⟩
      · rw [List.cons_append, insertByOffset, if_pos hy, h1]
        rfl
      · rw [List.cons_append, insertByOffset, if_pos hy, h2]
        rfl
    · refine ⟨z :: y :: s1', s2, ?_, ?_⟩
      · rw [List.cons_append, insertByOffset, if_neg hy]
        rfl
      · rw [List.cons_append, insertByOffset, if_neg hy]
        rfl

theorem sortByOffset_pair (x : FileHashRec) :
    ∀ (l1 l2 : List FileHashRec), ∃ s1 s2,
      sortByOffset (l1 ++ x :: x :: l2) = s1 ++ x :: x :: s2 ∧
      sortByOffset (l1 ++ x :: l2) = s1 ++ x :: s2 := by
  intro l1
  induction l1 with
  | nil =>
    intro l2
    rcases insertByOffset_decomp x (sortByOffset l2) with ⟨u1, u2, heq, hlt⟩
    refine ⟨u1, u2, ?_, ?_⟩
    · show sortByOffset (x :: x :: l2) = u1 ++ x :: x :: u2
      rw [sortByOffset, sortByOffset, heq]
      exact insertByOffset_at_dup x u1 u2 hlt
    · show sortByOffset (x :: l2) = u1 ++ x :: u2
      rw [sortByOffset, heq]
  | cons y l1' ih =>
    intro l2
    rcases ih l2 with ⟨s1, s2, h1, h2⟩
    rcases insertByOffset_pair y x s1 s2 with ⟨t1, t2, g1, g2⟩
    refine ⟨t1, t2, ?_, ?_⟩
    · show sortByOffset (y :: (l1' ++ x :: x :: l2)) = t1 ++ x :: x :: t2
      rw [sortByOffset, h1, g1]
    · show sortByOffset (y :: (l1' ++ x :: l2)) = t1 ++ x :: t2
      rw [sortByOffset, h2, g2]

theorem dedupGo_dup (x : FileHashRec) (b : List FileHashRec) :
    ∀ (a : List FileHashRec) (prev : FileHashRec),
      dedupGo prev (a ++ x :: x :: b) = dedupGo prev (a ++ x :: b) := by
  intro a
  induction a with
  | nil =>
    intro prev
    by_cases h : x.offset ≠ prev.offset
    · simp only [List.nil_append, dedupGo, if_pos h,
        if_neg (show ¬ x.offset ≠ x.offset from fun hc => hc rfl)]
    · simp only [List.nil_append, dedupGo, if_neg h,
        if_neg (show ¬ x.offset ≠ x.offset from fun hc => hc rfl)]
  | cons y a' ih =>
    intro prev
    by_cases h : y.offset ≠ prev.offset
    · simp only [List.cons_append, dedupGo, if_pos h]
      exact congrArg _ (ih y)
    · simp only [List.cons_append, dedupGo, if_neg h]
      exact ih y

theorem dedupByOffset_dup (x : FileHashRec) (b : List FileHashRec) :
    ∀ a : List FileHashRec,
      dedupByOffset (a ++ x :: x :: b) = dedupByOffset (a ++ x :: b) := by
  intro a
  cases a with
  | nil =>
    simp only [List.nil_append, dedupByOffset]
    simp only [dedupGo, if_neg (show ¬ x.offset ≠ x.offset from fun hc => hc rfl)]
  | cons h a' =>
    simp only [List.cons_append, dedupByOffset]
    rw [dedupGo_dup]

/-- C7 (amended): the multipart digest input is unchanged under any
reordering of the (offset, hash) list provided no two entries share an
offset, and inserting an exact duplicate of an entry immediately after it
never changes the digest input; when two entries share an offset with
different content, reordering changes which entry survives the
duplicate-offset removal and hence the digest (see the counterexample). -/
theorem from_file_hash_dedup_properties :
    (∀ l1 l2 : List FileHashRec, l1.Perm l2 →
      (l1.map (fun r => r.offset)).Nodup →
      fromFileHashData l1 = fromFileHashData l2) ∧
    (∀ (l1 l2 : List FileHashRec) (x : FileHashRec),
      fromFileHashData (l1 ++ x :: x :: l2) = fromFileHashData (l1 ++ x :: l2)) := by
  constructor
  · intro l1 l2 hperm hn
    unfold fromFileHashData
    rw [sortByOffset_eq_of_perm_nodup l1 l2 hperm hn]
  · intro l1 l2 x
    unfold fromFileHashData
    rcases sortByOffset_pair x l1 l2 with ⟨s1, s2, h1, h2⟩
    rw [h1, h2, dedupByOffset_dup]

/-- C7 counterexample: two entries with equal offset and different chunk
hashes — swapping them (a reordering of the input list) changes which entry
survives duplicate-offset removal, so the serialized digest inputs, and
with them the sha512 digests, differ. -/
theorem from_file_hash_order_sensitive :
    fromFileHashData [⟨0, 131072, [1]⟩, ⟨0, 131072, [2]⟩] ≠
      fromFileHashData [⟨0, 131072, [2]⟩, ⟨0, 131072, [1]⟩] := by
  decide

/-- Witness for the amended C7: distinct offsets reordered give the same
digest input, and an exact adjacent duplicate leaves the digest input
unchanged. -/
theorem from_file_hash_dedup_properties_witness :
    fromFileHashData [⟨0, 131072, [1]⟩, ⟨131072, 131072, [2]⟩] =
      fromFileHashData [⟨131072, 131072, [2]⟩, ⟨0, 131072, [1]⟩] ∧
    fromFileHashData [⟨0, 131072, [1]⟩, ⟨0, 131072, [1]⟩] =
      fromFileHashData [⟨0, 131072, [1]⟩] :=
  ⟨from_file_hash_dedup_properties.1 _ _ (by decide) (by decide),
   from_file_hash_dedup_properties.2 [] [] ⟨0, 131072, [1]⟩⟩

end TelegramFs
